import Mathlib

/-!
# Verification of the Chaerea passphrase generator core (`src/app.js`)

Shallow embedding of the core logic of `app.js`:

* `getSecureRandomIndex` — rejection sampler over 32-bit draws (app.js 118-128);
* `phoneticMap` / `garbledVariants` — phonetic garbling (app.js 40-91);
* `effectiveWordList` — base list plus garbled variants (app.js 98-110);
* `generatePassphrase` — pick / shuffle / capitalize / join (app.js 138-160);
* digit insertion for the "anywhere" policy (app.js 321-327);
* `binomialBig` / `spaceCount` — exact search-space count (app.js 345-372).

Modelling conventions:

* JS strings are modelled as `List Char` (`Word`); JS `Array` as `List`;
  JS `Set` as a duplicate-free `List` in insertion order (`jsSetAdd`).
* JS `BigInt` arithmetic on non-negative values is modelled in `ℕ`
  (BigInt `/` truncates toward zero, which on non-negative operands is `Nat.div`).
* The randomness consumed by the generator is modelled as a tape
  (`List ℕ`) of the accepted 32-bit draws, one per sampler call; a call with
  bound `b` uses the head draw `d` and yields `d % b`, exactly the
  `return value % max` of `getSecureRandomIndex`.  The rejection loop itself
  is modelled separately and in full by `getSecureRandomIndex` below.
* `Math.floor(0xffffffff / max)` is modelled as integer division: both
  operands are exactly representable doubles and the quotient is below
  `2^32 ≪ 2^53`, so the floating-point divide-then-floor equals the exact
  floored quotient.
-/

namespace Chaerea

/-- A JS string, modelled as its list of characters. -/
abbrev Word := List Char

/-! ## SecureIndexSampler (app.js 118-128) -/

/-- Outcome of a call to the sampler: the thrown `RangeError` for a
non-positive bound, a returned value, or exhaustion of the modelled
draw tape (the real loop would keep drawing). -/
inductive SampleResult where
  | invalidBound : SampleResult
  | ok : ℤ → SampleResult
  | exhausted : SampleResult
deriving DecidableEq, Repr

/-- `const limit = Math.floor(0xffffffff / max) * max` (app.js 120):
the largest multiple of `max` that is `≤ 2^32 - 1`. -/
def sampleLimit (max : ℤ) : ℤ :=
  4294967295 / max * max

/-- The `do { draw } while (value >= limit)` loop (app.js 122-126), over a
tape of 32-bit draws: the first draw `< limit` is accepted and reduced
`% max`. -/
def sampleLoop (max limit : ℤ) : List ℕ → SampleResult
  | [] => SampleResult.exhausted
  | d :: ds =>
    if (d : ℤ) < limit then SampleResult.ok ((d : ℤ) % max)
    else sampleLoop max limit ds

/-- `getSecureRandomIndex(max)` (app.js 118-128). -/
def getSecureRandomIndex (max : ℤ) (draws : List ℕ) : SampleResult :=
  if max ≤ 0 then SampleResult.invalidBound
  else sampleLoop max (sampleLimit max) draws

/-! ## PHONETIC_MAP (app.js 40-66) -/

/-- The fixed phonetic substitution table `PHONETIC_MAP` (app.js 40-66). -/
def phoneticMap : Char → Option Char
  | 'a' => some 'e'
  | 'b' => some 'p'
  | 'c' => some 'k'
  | 'd' => some 't'
  | 'e' => some 'i'
  | 'f' => some 'v'
  | 'g' => some 'j'
  | 'i' => some 'y'
  | 'j' => some 'g'
  | 'k' => some 'c'
  | 'l' => some 'r'
  | 'm' => some 'n'
  | 'n' => some 'm'
  | 'o' => some 'u'
  | 'p' => some 'b'
  | 'q' => some 'k'
  | 'r' => some 'l'
  | 's' => some 'z'
  | 't' => some 'd'
  | 'u' => some 'o'
  | 'v' => some 'w'
  | 'w' => some 'v'
  | 'x' => some 'z'
  | 'y' => some 'i'
  | 'z' => some 's'
  | _ => none

/-- The 26 lowercase letters, the domain the claim about `PHONETIC_MAP`
quantifies over. -/
def lowercaseAlphabet : List Char :=
  ['a', 'b', 'c', 'd', 'e', 'f', 'g', 'h', 'i', 'j', 'k', 'l', 'm',
   'n', 'o', 'p', 'q', 'r', 's', 't', 'u', 'v', 'w', 'x', 'y', 'z']

/-! ## Garbler (app.js 73-91) -/

/-- One iteration of the `letters.forEach((ch, idx) => ...)` body of
`garbledVariants` (app.js 78-88), at the position/character pair `p`:
skip unmapped characters, build the case-preserving replacement, skip it if
it equals the original character, substitute at the position and add the
candidate to the result set unless it is the original word. -/
def garbleStep (word : Word) (results : List Word) (p : ℕ × Char) : List Word :=
  match phoneticMap p.2.toLower with
  | Option.none => results
  | Option.some mapped =>
    let rep := if p.2 = p.2.toUpper then mapped.toUpper else mapped
    if rep = p.2 then results
    else
      let candidate := word.set p.1 rep
      if candidate = word then results
      else if candidate ∈ results then results
      else results ++ [candidate]

/-- `garbledVariants(word)` (app.js 73-91): for each position whose
lowercased character has a phonetic mapping, substitute the (case-preserved)
replacement at that position; collect the candidates distinct from the
original word, deduplicated in insertion order (the JS `Set`). -/
def garbledVariants (word : Word) : List Word :=
  word.enum.foldl (garbleStep word) []

/-- Number of positions at which two equal-length words differ. -/
def diffCount (xs ys : List Char) : ℕ :=
  ((xs.zip ys).filter (fun p => p.1 != p.2)).length

/-! ## WordListManager (app.js 98-110) -/

/-- `Set.prototype.add`: JS sets keep insertion order and ignore
re-insertions; modelled on duplicate-free lists. -/
def jsSetAdd (l : List Word) (a : Word) : List Word :=
  if a ∈ l then l else l ++ [a]

/-- `new Set(list)` rendered back as an array: first occurrences, in order. -/
def jsSetOfList (l : List Word) : List Word :=
  l.foldl jsSetAdd []

/-- `getEffectiveWordList()` (app.js 98-110), with the base list and the
garble setting passed explicitly: when `garbleMax > 0`, the base words
together with every garbled variant, deduplicated. -/
def effectiveWordList (base : List Word) (garbleMax : ℕ) : List Word :=
  if garbleMax > 0 then
    base.foldl (fun s w => (garbledVariants w).foldl jsSetAdd s) (jsSetOfList base)
  else base

/-! ## PassphraseBuilder (app.js 138-160)

The random decisions are modelled by a tape of accepted 32-bit draws
(see the header): a call of `getSecureRandomIndex(b)` consumes the head
draw `d` and yields `d % b`, and a call with an empty or exhausted source
is modelled as failure where the code would throw (`b = 0`). -/

/-- `w.length > 0 ? w[0].toUpperCase() + w.slice(1) : w` (app.js 158). -/
def capitalizeWord (w : Word) : Word :=
  match w with
  | [] => []
  | c :: cs => c.toUpper :: cs

/-- The two pick loops of `generatePassphrase` (app.js 142-145, 147-150):
`n` draws of `list[getSecureRandomIndex(list.length)]`.  An empty list makes
`getSecureRandomIndex(0)` throw, modelled as `none`. -/
def pickN (list : List Word) : ℕ → List ℕ → Option (List Word × List ℕ)
  | 0, tape => some ([], tape)
  | n + 1, tape =>
    if list.length = 0 then none
    else
      match pickN list n tape.tail with
      | Option.none => none
      | Option.some (ws, t) =>
        some (list.getD (tape.headD 0 % list.length) [] :: ws, t)

/-- `[picked[i], picked[j]] = [picked[j], picked[i]]` (app.js 154). -/
def swapAt (l : List Word) (i j : ℕ) : List Word :=
  let vi := l.getD i []
  let vj := l.getD j []
  (l.set i vj).set j vi

/-- The Fisher–Yates loop (app.js 152-155), counting the loop variable
down: in state `i + 1` the code draws `j = getSecureRandomIndex(i + 2)`
and swaps positions `i + 1` and `j`. -/
def fyAux : List Word → ℕ → List ℕ → List Word × List ℕ
  | l, 0, tape => (l, tape)
  | l, i + 1, tape => fyAux (swapAt l (i + 1) (tape.headD 0 % (i + 2))) i tape.tail

/-- `for (let i = picked.length - 1; i > 0; i--)` (app.js 152). -/
def fisherYates (l : List Word) (tape : List ℕ) : List Word × List ℕ :=
  fyAux l (l.length - 1) tape

/-- `generatePassphrase(baseWords, count, separator, garbleMax)`
(app.js 138-160), stopping before the final `join`: the list of
capitalized words.  `getEffectiveWordList()` reads the same garble setting
that is passed here as `garbleMax` (app.js 100, 312-313). -/
def generatePassphraseWords (baseWords : List Word) (count : ℕ) (garbleMax : ℕ)
    (tape : List ℕ) : Option (List Word) :=
  match (if garbleMax > 0 then
           pickN (effectiveWordList baseWords garbleMax) garbleMax tape
         else some ([], tape)) with
  | Option.none => none
  | Option.some (gw, t1) =>
    match pickN baseWords (count - garbleMax) t1 with
    | Option.none => none
    | Option.some (bw, t2) =>
      some (((fisherYates (gw ++ bw) t2).1).map capitalizeWord)

/-- `generatePassphrase` including the final `finalWords.join(separator)`
(app.js 159). -/
def generatePassphrase (baseWords : List Word) (count : ℕ) (separator : Word)
    (garbleMax : ℕ) (tape : List ℕ) : Option (List Char) :=
  (generatePassphraseWords baseWords count garbleMax tape).map
    (List.intercalate separator)

/-! ## Digit insertion, "anywhere" policy (app.js 321-327) -/

/-- `sep` is a prefix of the second list (the test JS `indexOf` performs at
each scan position). -/
def leadsWith : List Char → List Char → Bool
  | [], _ => true
  | _ :: _, [] => false
  | a :: as, b :: bs => a == b && leadsWith as bs

/-- First occurrence of `sep` in a string, as the part before it and the
part after it (the single step of `String.prototype.split`). -/
def splitFirst (sep : List Char) : List Char → Option (List Char × List Char)
  | [] => none
  | c :: cs =>
    if leadsWith sep (c :: cs) then some ([], (c :: cs).drop sep.length)
    else
      match splitFirst sep cs with
      | Option.none => none
      | Option.some (pre, rest) => some (c :: pre, rest)

/-- Fuelled iteration of `splitFirst`; `fuel ≥` the number of separator
occurrences always suffices. -/
def jsSplitAux (sep : List Char) : ℕ → List Char → List (List Char)
  | 0, s => [s]
  | fuel + 1, s =>
    match splitFirst sep s with
    | Option.none => [s]
    | Option.some (pre, rest) => pre :: jsSplitAux sep fuel rest

/-- `str.split(sep)` of JS with a string separator (app.js 323): with an
empty separator the string splits into its individual characters, otherwise
into the pieces between non-overlapping left-to-right occurrences of
`sep`.  A nonempty separator occurs at most `s.length` times, so
`s.length + 1` fuel is exact. -/
def jsSplit (sep s : List Char) : List (List Char) :=
  if sep = [] then s.map (fun c => [c])
  else jsSplitAux sep (s.length + 1) s

/-- `digit.toString()` (app.js 325). -/
def digitToken (d : ℕ) : Word :=
  (Nat.repr d).data

/-- The `anywhere` branch (app.js 322-326): split the phrase on the
separator, draw a position among `parts.length + 1` slots (tape-modelled,
see header), splice the digit in as its own element, rejoin. -/
def insertDigitAnywhere (phrase sep : Word) (d : ℕ) (t : ℕ) : Word :=
  let parts := jsSplit sep phrase
  let pos := t % (parts.length + 1)
  List.intercalate sep (parts.insertIdx pos (digitToken d))

/-! ## SpaceCounter (app.js 345-372) -/

/-- The digit policy, `includeNumberSelect.value` (app.js 315):
`'none'`, `'end'`, `'anywhere'`. -/
inductive DigitPolicy where
  | nodigit : DigitPolicy
  | atEnd : DigitPolicy
  | anywhere : DigitPolicy
deriving DecidableEq, Repr

/-- The loop `for (let i = 1; i <= k; i++) res = res * BigInt(n - k + i) / BigInt(i)`
(app.js 348-351) after `i` iterations, with `a = n - k`.  BigInt division
truncates; on the non-negative values here it is `Nat.div`. -/
def binomIter (a : ℕ) : ℕ → ℕ
  | 0 => 1
  | i + 1 => binomIter a i * (a + (i + 1)) / (i + 1)

/-- `binomialBig(n, k)` (app.js 345-353): `0` outside `0 ≤ k ≤ n`, otherwise
the multiplicative formula after the symmetry reduction
`k = Math.min(k, n - k)`. -/
def binomialBig (n : ℕ) (k : ℤ) : ℕ :=
  if k < 0 ∨ (n : ℤ) < k then 0
  else
    binomIter (n - min k.toNat (n - k.toNat)) (min k.toNat (n - k.toNat))

/-- The search-space computation of `generateAndDisplay` (app.js 355-372),
with the base-list size `B`, variant count `V`, word count and garble
setting passed explicitly: `maxG = Math.max(0, Math.min(garbleMax, count))`,
`possible = Σ_{k=0}^{maxG} binomialBig(count,k) · V^k · B^(count-k)`,
then `*10` for a digit and additionally `*(count+1)` for `anywhere`. -/
def spaceCount (B V count : ℕ) (garbleMax : ℤ) (policy : DigitPolicy) : ℕ :=
  let maxG := (max 0 (min garbleMax (count : ℤ))).toNat
  let possible :=
    ((List.range (maxG + 1)).map
      (fun (k : ℕ) => binomialBig count (k : ℤ) * V ^ k * B ^ (count - k))).sum
  match policy with
  | DigitPolicy.nodigit => possible
  | DigitPolicy.atEnd => possible * 10
  | DigitPolicy.anywhere => possible * 10 * (count + 1)

/-- The largest finite IEEE-754 binary64 value, `(2^53 - 1) · 2^971`:
`Number(bigint)` (app.js 379) yields `Infinity` for any integer above it. -/
def maxFiniteDouble : ℕ :=
  (2 ^ 53 - 1) * 2 ^ 971

/-! ## Helper lemmas: the sampler -/

/-- The rejection loop accepts exactly the first draw below the limit. -/
theorem sampleLoop_eq_find (max limit : ℤ) (draws : List ℕ) :
    sampleLoop max limit draws =
      match draws.find? (fun (d : ℕ) => decide ((d : ℤ) < limit)) with
      | Option.some d => SampleResult.ok ((d : ℤ) % max)
      | Option.none => SampleResult.exhausted := by
  induction draws with
  | nil => rfl
  | cons d ds ih =>
    by_cases h : (d : ℤ) < limit
    · simp [sampleLoop, h, List.find?_cons_of_pos]
    · simp [sampleLoop, h, List.find?_cons_of_neg, ih]

/-! ## C1 and C9: the sampler theorems -/

/-- C1 (counterexample): the claim says the rejection limit is
`floor(2^32 / bound) * bound`; at `bound = 2` the code's limit is
`floor((2^32 - 1) / 2) * 2 = 4294967294 ≠ 2^32`, and the draw `4294967294`,
which the claimed limit would accept (and return `0` for), is rejected. -/
theorem c1_counterexample :
    getSecureRandomIndex 2 [4294967294] = SampleResult.exhausted ∧
    (4294967294 : ℤ) < 2 ^ 32 / 2 * 2 ∧
    sampleLimit 2 ≠ 2 ^ 32 / 2 * 2 := by decide

/-- C1 (amended): for every bound > 0, the sampler computes
`limit = floor((2^32 - 1) / bound) * bound` (the largest multiple of the
bound not exceeding `2^32 - 1`), repeatedly draws until one is `< limit`,
and returns that first accepted draw `mod bound`; the returned value is
always in `[0, bound)`, never `≥ bound`. -/
theorem c1_amended (max : ℤ) (draws : List ℕ) (v : ℤ) (hmax : 0 < max)
    (hok : getSecureRandomIndex max draws = SampleResult.ok v) :
    (0 ≤ v ∧ v < max) ∧
    ∃ d : ℕ,
      draws.find? (fun (x : ℕ) => decide ((x : ℤ) < (2 ^ 32 - 1) / max * max)) =
        Option.some d ∧
      v = (d : ℤ) % max := by
  rw [getSecureRandomIndex, if_neg (not_le.mpr hmax), sampleLoop_eq_find] at hok
  have hlim : sampleLimit max = (2 ^ 32 - 1) / max * max := by norm_num [sampleLimit]
  rw [hlim] at hok
  obtain ⟨d, hd⟩ : ∃ d : ℕ,
      draws.find? (fun (x : ℕ) => decide ((x : ℤ) < (2 ^ 32 - 1) / max * max)) =
        Option.some d := by
    rcases hfind : draws.find?
        (fun (x : ℕ) => decide ((x : ℤ) < (2 ^ 32 - 1) / max * max)) with _ | d
    · rw [hfind] at hok
      exact absurd hok (by simp)
    · exact ⟨d, rfl⟩
  rw [hd] at hok
  have hv : v = (d : ℤ) % max := by
    injection hok with h2
    exact h2.symm
  subst hv
  exact ⟨⟨Int.emod_nonneg _ (ne_of_gt hmax), Int.emod_lt_of_pos _ hmax⟩, d, hd, rfl⟩

/-- C1 witness: bound 5 with accepted draw 23 returns `23 % 5 = 3 ∈ [0, 5)`. -/
theorem c1_witness :
    ((0 : ℤ) ≤ 3 ∧ (3 : ℤ) < 5) ∧
    ∃ d : ℕ,
      [23].find? (fun (x : ℕ) => decide ((x : ℤ) < (2 ^ 32 - 1) / 5 * 5)) =
        Option.some d ∧
      (3 : ℤ) = (d : ℤ) % 5 :=
  c1_amended 5 [23] 3 (by decide) (by decide)

/-- C9: the sampler signals `InvalidBound` (and returns no value) exactly
when called with `bound ≤ 0`; for any positive bound it never produces that
error, so no default value is ever silently substituted. -/
theorem c9_invalid_bound (max : ℤ) (draws : List ℕ) :
    getSecureRandomIndex max draws = SampleResult.invalidBound ↔ max ≤ 0 := by
  constructor
  · intro h
    by_contra hm
    rw [getSecureRandomIndex, if_neg hm, sampleLoop_eq_find] at h
    rcases hfind : draws.find? (fun (d : ℕ) => decide ((d : ℤ) < sampleLimit max)) with _ | d <;>
      rw [hfind] at h <;> exact absurd h (by simp)
  · intro h
    simp [getSecureRandomIndex, h]

/-! ## C6: the phonetic table -/

/-- C6 (counterexample): the table is not one-to-one — `c` and `q` are
distinct mapped letters with the same replacement `k` (likewise `e`/`y`,
`f`/`w`, `s`/`x`). -/
theorem c6_counterexample :
    ¬ (∀ c₁ ∈ lowercaseAlphabet, ∀ c₂ ∈ lowercaseAlphabet,
        (phoneticMap c₁).isSome → phoneticMap c₁ = phoneticMap c₂ → c₁ = c₂) := by
  decide

/-- C6 (amended): the table maps exactly 25 of the 26 lowercase letters —
only `h` has no mapping — but it is not one-to-one: `c` and `q` share the
replacement `k`. -/
theorem c6_amended :
    (lowercaseAlphabet.filter (fun c => (phoneticMap c).isSome)).length = 25 ∧
    phoneticMap 'h' = Option.none ∧
    phoneticMap 'c' = Option.some 'k' ∧ phoneticMap 'q' = Option.some 'k' := by
  decide

/-! ## C7: variants of "cat" and "xyz" -/

/-- C7: `garbledVariants "cat"` contains `"kat"` and not `"cat"`, and
`garbledVariants "xyz"` is exactly the set `{"zyz", "xiz", "xys"}`. -/
theorem c7_variants :
    ['k', 'a', 't'] ∈ garbledVariants ['c', 'a', 't'] ∧
    ['c', 'a', 't'] ∉ garbledVariants ['c', 'a', 't'] ∧
    ∀ s : Word, s ∈ garbledVariants ['x', 'y', 'z'] ↔
      (s = ['z', 'y', 'z'] ∨ s = ['x', 'i', 'z'] ∨ s = ['x', 'y', 's']) := by
  refine ⟨by decide, by decide, ?_⟩
  intro s
  have h : garbledVariants ['x', 'y', 'z'] =
      [['z', 'y', 'z'], ['x', 'i', 'z'], ['x', 'y', 's']] := by decide
  rw [h]
  simp

/-! ## C4: the entropy computation overflows the double range -/

set_option maxRecDepth 8000 in
/-- C4 (code bug): with a 1024-word base list, `wordCount = 103`,
`garbleMax = 0` and no digit — a configuration the validation accepts,
since the effective list has at least `wordCount` words — the exact count
is `1024^103 = 2^1030`, which exceeds the largest finite IEEE-754 double;
`Math.log2(Number(possible))` (app.js 379) therefore evaluates to
`Math.log2(Infinity) = Infinity` instead of the finite `1030`. -/
theorem c4_overflow :
    spaceCount 1024 0 103 0 DigitPolicy.nodigit = 2 ^ 1030 ∧
    maxFiniteDouble < 2 ^ 1030 := by
  constructor <;> decide

/-! ## Helper lemmas: the binomial loop -/

/-- The key step identity of the multiplicative formula:
`C(a+i, i) * (a+i+1) = C(a+i+1, i+1) * (i+1)`, so the division by `i + 1`
in each loop iteration is exact. -/
theorem choose_mul_step (a i : ℕ) :
    (a + i).choose i * (a + (i + 1)) = (a + (i + 1)).choose (i + 1) * (i + 1) := by
  have h := Nat.succ_mul_choose_eq (a + i) i
  have ha : a + (i + 1) = (a + i) + 1 := by ring
  rw [ha, mul_comm ((a + i).choose i)]
  simpa using h

/-- After `i` iterations the loop register holds `C(a + i, i)`. -/
theorem binomIter_eq_choose (a : ℕ) : ∀ i : ℕ, binomIter a i = (a + i).choose i := by
  intro i
  induction i with
  | zero => simp [binomIter]
  | succ i ih =>
    rw [binomIter, ih, choose_mul_step, Nat.mul_div_cancel _ (Nat.succ_pos i)]

/-- `binomialBig` agrees with the mathematical binomial coefficient,
extended by zero outside `0 ≤ k ≤ n`. -/
theorem binomialBig_eq_choose (n : ℕ) (k : ℤ) :
    binomialBig n k = if 0 ≤ k ∧ k ≤ (n : ℤ) then n.choose k.toNat else 0 := by
  unfold binomialBig
  by_cases h1 : k < 0
  · rw [if_pos (Or.inl h1), if_neg (by omega)]
  · by_cases h2 : (n : ℤ) < k
    · rw [if_pos (Or.inr h2), if_neg (by omega)]
    · rw [if_neg (by omega), if_pos ⟨by omega, by omega⟩]
      have hkn : k.toNat ≤ n := by omega
      have hm : min k.toNat (n - k.toNat) ≤ n := le_trans (min_le_left _ _) hkn
      rw [binomIter_eq_choose, Nat.sub_add_cancel hm]
      rcases min_cases k.toNat (n - k.toNat) with ⟨hmin, _⟩ | ⟨hmin, _⟩
      · rw [hmin]
      · rw [hmin, Nat.choose_symm hkn]

/-! ## C8: the binomial coefficient -/

/-- C8: for every `n ≥ 0` and every integer `k`, `binomialBig(n, k)` is
exactly `C(n, k)` — `0` for `k < 0` or `k > n` (hence `1` at `k = 0` and
`k = n`) — and every intermediate division of the multiplicative loop is
exact: `res_i * (n - k + (i+1))` is precisely `(i+1) * res_{i+1}`. -/
theorem c8_binomial (n : ℕ) (k : ℤ) :
    binomialBig n k = (if 0 ≤ k ∧ k ≤ (n : ℤ) then n.choose k.toNat else 0) ∧
    ∀ a i : ℕ, binomIter a i * (a + (i + 1)) = (i + 1) * binomIter a (i + 1) := by
  refine ⟨binomialBig_eq_choose n k, ?_⟩
  intro a i
  rw [binomIter_eq_choose, binomIter_eq_choose, choose_mul_step, mul_comm]

/-! ## Helper lemmas: the counting sum -/

/-- A mapped-sum over `List.range` is the corresponding `Finset.range` sum. -/
theorem sum_map_range (n : ℕ) (f : ℕ → ℕ) :
    ((List.range n).map f).sum = ∑ k in Finset.range n, f k := by
  induction n with
  | zero => simp
  | succ n ih =>
    rw [List.range_succ, List.map_append, List.sum_append, Finset.sum_range_succ, ih]
    simp

/-! ## C2: the space counter -/

/-- C2: for all sizes, `spaceCount` equals
`Σ_{k=0}^{min(garbleMax, wordCount)} C(wordCount,k) · V^k · B^(wordCount-k)`
times `1` / `10` / `10·(wordCount+1)` for the `None` / `AtEnd` / `Anywhere`
digit policies; in particular `B=3, V=2, wordCount=2, garbleMax=1, AtEnd`
gives `210`. -/
theorem c2_spaceCount (B V count gm : ℕ) (policy : DigitPolicy) :
    spaceCount B V count (gm : ℤ) policy =
      (∑ k in Finset.range (min gm count + 1),
        count.choose k * V ^ k * B ^ (count - k)) *
      (match policy with
       | DigitPolicy.nodigit => 1
       | DigitPolicy.atEnd => 10
       | DigitPolicy.anywhere => 10 * (count + 1)) ∧
    spaceCount 3 2 2 1 DigitPolicy.atEnd = 210 := by
  constructor
  · have hmg : (max 0 (min (gm : ℤ) (count : ℤ))).toNat = min gm count := by
      rw [← Nat.cast_min, max_eq_right (Int.natCast_nonneg _), Int.toNat_natCast]
    have key : ((List.range ((max 0 (min (gm : ℤ) (count : ℤ))).toNat + 1)).map
          (fun (k : ℕ) => binomialBig count (k : ℤ) * V ^ k * B ^ (count - k))).sum =
        ∑ k in Finset.range (min gm count + 1),
          count.choose k * V ^ k * B ^ (count - k) := by
      rw [hmg, sum_map_range]
      refine Finset.sum_congr rfl ?_
      intro k hk
      rw [Finset.mem_range, Nat.lt_succ_iff] at hk
      have hk2 : k ≤ count := le_trans hk (min_le_right _ _)
      rw [binomialBig_eq_choose,
        if_pos ⟨Int.natCast_nonneg k, by exact_mod_cast hk2⟩, Int.toNat_natCast]
    cases policy <;> simp only [spaceCount] <;> rw [key] <;> ring
  · decide

/-! ## Helper lemmas: variant shape -/

/-- Zipping a list with itself pairs each element with itself. -/
theorem mem_zip_self (l : List Char) : ∀ a b : Char, (a, b) ∈ l.zip l → a = b := by
  induction l with
  | nil => intro a b h; simp at h
  | cons x l ih =>
    intro a b h
    rcases List.mem_cons.mp h with h | h
    · obtain ⟨rfl, rfl⟩ := Prod.mk.injEq .. ▸ h
      rfl
    · exact ih a b h

/-- A word does not differ from itself at any position. -/
theorem diffCount_self (l : List Char) : diffCount l l = 0 := by
  induction l with
  | nil => rfl
  | cons a l ih =>
    unfold diffCount at ih ⊢
    simp [List.filter_cons, ih]

/-- Substituting a genuinely different character at one in-range position
produces a word differing in exactly that one position. -/
theorem diffCount_set (w : List Char) (idx : ℕ) (rep ch : Char)
    (hget : w.get? idx = some ch) (hne : rep ≠ ch) :
    diffCount w (w.set idx rep) = 1 := by
  induction w generalizing idx with
  | nil => simp at hget
  | cons a l ih =>
    cases idx with
    | zero =>
      obtain rfl : a = ch := by simpa using hget
      unfold diffCount
      simp [List.filter_cons, bne_iff_ne, Ne.symm hne]
      exact mem_zip_self l
    | succ i =>
      unfold diffCount
      simp only [List.set, List.zip_cons_cons, List.filter_cons, bne_self_eq_false,
        Bool.false_eq_true, if_false]
      exact ih i (by simpa using hget)

/-- Everything `garbleStep` adds beyond the accumulator is a single-position
substitution of the word. -/
theorem garbleStep_mem (w : Word) (acc : List Word) (p : ℕ × Char)
    (hp : w.get? p.1 = some p.2) :
    ∀ v ∈ garbleStep w acc p, v ∈ acc ∨ (v.length = w.length ∧ diffCount w v = 1) := by
  intro v hv
  unfold garbleStep at hv
  rcases hmap : phoneticMap p.2.toLower with _ | mapped
  · rw [hmap] at hv
    exact Or.inl hv
  · rw [hmap] at hv
    simp only at hv
    by_cases hrep : (if p.2 = p.2.toUpper then mapped.toUpper else mapped) = p.2
    · rw [if_pos hrep] at hv
      exact Or.inl hv
    · rw [if_neg hrep] at hv
      by_cases hcw : w.set p.1 (if p.2 = p.2.toUpper then mapped.toUpper else mapped) = w
      · rw [if_pos hcw] at hv
        exact Or.inl hv
      · rw [if_neg hcw] at hv
        by_cases hmem : w.set p.1 (if p.2 = p.2.toUpper then mapped.toUpper else mapped) ∈ acc
        · rw [if_pos hmem] at hv
          exact Or.inl hv
        · rw [if_neg hmem] at hv
          rcases List.mem_append.mp hv with h | h
          · exact Or.inl h
          · obtain rfl : v = w.set p.1
                (if p.2 = p.2.toUpper then mapped.toUpper else mapped) := by
              simpa using h
            exact Or.inr ⟨(List.length_set w _ _).symm ▸ rfl,
              diffCount_set w p.1 _ p.2 hp hrep⟩

/-- The fold of `garbleStep` over pairs drawn from `w.enum` only ever
accumulates single-position substitutions of `w`. -/
theorem foldl_garbleStep_mem (w : Word) :
    ∀ (l : List (ℕ × Char)) (acc : List Word),
      (∀ p ∈ l, p ∈ w.enum) →
      (∀ v ∈ acc, v.length = w.length ∧ diffCount w v = 1) →
      ∀ v ∈ l.foldl (garbleStep w) acc, v.length = w.length ∧ diffCount w v = 1 := by
  intro l
  induction l with
  | nil => intro acc _ hacc v hv; exact hacc v hv
  | cons p l ih =>
    intro acc hl hacc v hv
    refine ih (garbleStep w acc p) (fun q hq => hl q (List.mem_cons_of_mem _ hq)) ?_ v hv
    intro u hu
    have hp : w.get? p.1 = some p.2 := by
      have := hl p (List.mem_cons_self _ _)
      simpa using List.mem_enum_iff_getElem?.mp this
    rcases garbleStep_mem w acc p hp u hu with h | h
    · exact hacc u h
    · exact h

/-! ## C10: variants keep the length and differ in one position -/

/-- C10: every garbled variant of a word has exactly the word's length and
differs from it in exactly one character position. -/
theorem c10_variant_shape (w v : Word) (hv : v ∈ garbledVariants w) :
    v.length = w.length ∧ diffCount w v = 1 := by
  unfold garbledVariants at hv
  exact foldl_garbleStep_mem w w.enum [] (fun _ hp => hp) (by simp) v hv

/-- C10 witness: `"kat" ∈ garbledVariants "cat"` has length 3 and differs
from `"cat"` in exactly one position. -/
theorem c10_witness :
    (['k', 'a', 't'] : Word).length = (['c', 'a', 't'] : Word).length ∧
    diffCount ['c', 'a', 't'] ['k', 'a', 't'] = 1 :=
  c10_variant_shape ['c', 'a', 't'] ['k', 'a', 't'] (by decide)

/-! ## Helper lemmas: the builder -/

/-- A defaulted in-range lookup lands in the list. -/
theorem getD_mem (l : List Word) (n : ℕ) (h : n < l.length) : l.getD n [] ∈ l := by
  rw [List.getD_eq_getElem l [] h]
  exact List.getElem_mem h

/-- A pick loop over a nonempty list succeeds and returns the requested
number of members of the list. -/
theorem pickN_spec (list : List Word) (hne : list ≠ []) :
    ∀ (n : ℕ) (tape : List ℕ), ∃ ws t, pickN list n tape = some (ws, t) ∧
      ws.length = n ∧ ∀ w ∈ ws, w ∈ list := by
  intro n
  induction n with
  | zero => intro tape; exact ⟨[], tape, rfl, rfl, by simp⟩
  | succ n ih =>
    intro tape
    obtain ⟨ws, t, heq, hlen, hmem⟩ := ih tape.tail
    have hl : ¬ list.length = 0 := by
      simpa using fun h => hne (List.length_eq_zero.mp h)
    refine ⟨list.getD (tape.headD 0 % list.length) [] :: ws, t, ?_, by simp [hlen], ?_⟩
    · rw [pickN, if_neg hl, heq]
    · intro w hw
      rcases List.mem_cons.mp hw with rfl | hw
      · exact getD_mem list _ (Nat.mod_lt _ (Nat.pos_of_ne_zero hl))
      · exact hmem w hw

/-- Swapping keeps the length. -/
theorem swapAt_length (l : List Word) (i j : ℕ) : (swapAt l i j).length = l.length := by
  simp [swapAt]

/-- Swapping two in-range positions introduces no new elements. -/
theorem swapAt_mem (l : List Word) (i j : ℕ) (hi : i < l.length) (hj : j < l.length) :
    ∀ x ∈ swapAt l i j, x ∈ l := by
  intro x hx
  unfold swapAt at hx
  simp only at hx
  rcases List.mem_or_eq_of_mem_set hx with hx1 | rfl
  · rcases List.mem_or_eq_of_mem_set hx1 with hx2 | rfl
    · exact hx2
    · exact getD_mem l j hj
  · exact getD_mem l i hi

/-- The Fisher–Yates loop preserves the length and the carried elements. -/
theorem fyAux_spec : ∀ (i : ℕ) (l : List Word) (tape : List ℕ), i < l.length →
    (fyAux l i tape).1.length = l.length ∧ ∀ x ∈ (fyAux l i tape).1, x ∈ l := by
  intro i
  induction i with
  | zero => intro l tape _; exact ⟨rfl, fun x hx => hx⟩
  | succ i ih =>
    intro l tape hi
    have hj : tape.headD 0 % (i + 2) < l.length :=
      lt_of_lt_of_le (Nat.mod_lt _ (by omega)) hi
    have hlen := swapAt_length l (i + 1) (tape.headD 0 % (i + 2))
    obtain ⟨h1, h2⟩ :=
      ih (swapAt l (i + 1) (tape.headD 0 % (i + 2))) tape.tail (by omega)
    constructor
    · rw [fyAux, h1, hlen]
    · intro x hx
      rw [fyAux] at hx
      exact swapAt_mem l (i + 1) _ hi hj x (h2 x hx)

/-- The shuffle (app.js 152-155) keeps the length and the elements. -/
theorem fisherYates_spec (l : List Word) (tape : List ℕ) :
    (fisherYates l tape).1.length = l.length ∧
    ∀ x ∈ (fisherYates l tape).1, x ∈ l := by
  cases l with
  | nil => exact ⟨rfl, fun x hx => hx⟩
  | cons a l => exact fyAux_spec ((a :: l).length - 1) (a :: l) tape (by simp)

/-- Anything already accumulated survives further `jsSetAdd` folding. -/
theorem mem_foldl_jsSetAdd (l : List Word) :
    ∀ (acc : List Word) (x : Word), x ∈ acc → x ∈ l.foldl jsSetAdd acc := by
  induction l with
  | nil => intro acc x hx; exact hx
  | cons a l ih =>
    intro acc x hx
    refine ih _ x ?_
    unfold jsSetAdd
    split <;> simp [hx]

/-- Every element of the source list ends up in its `Set`. -/
theorem mem_foldl_jsSetAdd_of_mem (l : List Word) :
    ∀ (acc : List Word) (x : Word), x ∈ l → x ∈ l.foldl jsSetAdd acc := by
  induction l with
  | nil => intro acc x hx; simp at hx
  | cons a l ih =>
    intro acc x hx
    rcases List.mem_cons.mp hx with rfl | hx
    · refine mem_foldl_jsSetAdd l _ x ?_
      unfold jsSetAdd
      split
      · assumption
      · simp
    · exact ih _ x hx

/-- The base words are all members of the effective list. -/
theorem mem_effectiveWordList_of_mem_base (base : List Word) (g : ℕ) (x : Word)
    (hx : x ∈ base) : x ∈ effectiveWordList base g := by
  unfold effectiveWordList
  split
  · have h0 : x ∈ jsSetOfList base := mem_foldl_jsSetAdd_of_mem base [] x hx
    have hpres : ∀ (bs : List Word) (s : List Word), x ∈ s →
        x ∈ bs.foldl (fun s w => (garbledVariants w).foldl jsSetAdd s) s := by
      intro bs
      induction bs with
      | nil => intro s hs; exact hs
      | cons b bs ih =>
        intro s hs
        exact ih _ (mem_foldl_jsSetAdd _ _ x hs)
    exact hpres base _ h0
  · exact hx

/-- A nonempty base list gives a nonempty effective list. -/
theorem effectiveWordList_ne_nil (base : List Word) (g : ℕ) (hne : base ≠ []) :
    effectiveWordList base g ≠ [] := by
  obtain ⟨a, base', rfl⟩ := List.exists_cons_of_ne_nil hne
  exact List.ne_nil_of_mem
    (mem_effectiveWordList_of_mem_base _ g a (List.mem_cons_self _ _))

/-! ## C3: the builder output -/

/-- C3 (counterexample): the builder does not clamp `garbleMax`. Called
with base list `["ab"]`, `wordCount = 1`, `garbleMax = 2`, it picks two
garble-phase words and the phrase has 2 words, not `wordCount = 1`. -/
theorem c3_counterexample :
    generatePassphraseWords [['a', 'b']] 1 2 [0, 0, 0] =
      some [['A', 'b'], ['A', 'b']] ∧
    ([['A', 'b'], ['A', 'b']] : List Word).length ≠ 1 := by decide

/-- C3 (amended): the builder performs no clamp of `garbleMax`; under the
caller-enforced invariant `garbleMax ≤ wordCount` (and a nonempty base
list) it returns exactly `wordCount` words, each a selected word from the
base or effective list with its first character uppercased and the rest
unchanged, joined by the separator. -/
theorem c3_amended (base : List Word) (count garbleMax : ℕ) (sep : Word)
    (tape : List ℕ) (hbase : base ≠ []) (hcount : 1 ≤ count)
    (hgm : garbleMax ≤ count) :
    ∃ ws, generatePassphraseWords base count garbleMax tape = some ws ∧
      generatePassphrase base count sep garbleMax tape =
        some (List.intercalate sep ws) ∧
      ws.length = count ∧
      ∀ w ∈ ws, ∃ orig, (orig ∈ base ∨ orig ∈ effectiveWordList base garbleMax) ∧
        w = capitalizeWord orig := by
  by_cases hg : garbleMax > 0
  · obtain ⟨gw, t1, hpick1, hlen1, hmem1⟩ :=
      pickN_spec _ (effectiveWordList_ne_nil base garbleMax hbase) garbleMax tape
    obtain ⟨bw, t2, hpick2, hlen2, hmem2⟩ :=
      pickN_spec base hbase (count - garbleMax) t1
    obtain ⟨hshlen, hshmem⟩ := fisherYates_spec (gw ++ bw) t2
    have hwords : generatePassphraseWords base count garbleMax tape =
        some (((fisherYates (gw ++ bw) t2).1).map capitalizeWord) := by
      rw [generatePassphraseWords, if_pos hg, hpick1]
      simp only [hpick2]
    refine ⟨_, hwords, ?_, ?_, ?_⟩
    · rw [generatePassphrase, hwords, Option.map_some']
    · rw [List.length_map, hshlen, List.length_append, hlen1, hlen2]
      omega
    · intro w hw
      obtain ⟨orig, horig, rfl⟩ := List.mem_map.mp hw
      refine ⟨orig, ?_, rfl⟩
      rcases List.mem_append.mp (hshmem orig horig) with h | h
      · exact Or.inr (hmem1 orig h)
      · exact Or.inl (hmem2 orig h)
  · have hg0 : garbleMax = 0 := by omega
    subst hg0
    obtain ⟨bw, t2, hpick2, hlen2, hmem2⟩ := pickN_spec base hbase (count - 0) tape
    obtain ⟨hshlen, hshmem⟩ := fisherYates_spec ([] ++ bw) t2
    have hwords : generatePassphraseWords base count 0 tape =
        some (((fisherYates ([] ++ bw) t2).1).map capitalizeWord) := by
      rw [generatePassphraseWords, if_neg hg]
      simp only [hpick2]
    refine ⟨_, hwords, ?_, ?_, ?_⟩
    · rw [generatePassphrase, hwords, Option.map_some']
    · rw [List.length_map, hshlen, List.length_append, hlen2]
      simp only [List.length_nil]
      omega
    · intro w hw
      obtain ⟨orig, horig, rfl⟩ := List.mem_map.mp hw
      refine ⟨orig, ?_, rfl⟩
      rcases List.mem_append.mp (hshmem orig horig) with h | h
      · simp at h
      · exact Or.inl (hmem2 orig h)

/-- C3 witness: base `["ab"]`, one word, no garbling: the phrase is one
capitalized selected word. -/
theorem c3_witness :
    ∃ ws, generatePassphraseWords [['a', 'b']] 1 0 [] = some ws ∧
      generatePassphrase [['a', 'b']] 1 ['-'] 0 [] =
        some (List.intercalate ['-'] ws) ∧
      ws.length = 1 ∧
      ∀ w ∈ ws, ∃ orig,
        (orig ∈ [['a', 'b']] ∨ orig ∈ effectiveWordList [['a', 'b']] 0) ∧
        w = capitalizeWord orig :=
  c3_amended [['a', 'b']] 1 0 ['-'] [] (by decide) (by decide) (by decide)

/-! ## Helper lemmas: splitting on a separator -/

/-- Unfolding `intercalate` over at least two pieces. -/
theorem intercalate_cons_cons (sep : List Char) (a b : Word) (t : List Word) :
    List.intercalate sep (a :: b :: t) = a ++ sep ++ List.intercalate sep (b :: t) := by
  simp [List.intercalate, List.intersperse_cons_cons]

/-- A single-character separator absent from a string is never found. -/
theorem splitFirst_none (c : Char) (s : List Char) (hc : c ∉ s) :
    splitFirst [c] s = Option.none := by
  induction s with
  | nil => rfl
  | cons b bs ih =>
    simp only [List.mem_cons, not_or] at hc
    have hcb : (c == b) = false := by
      simpa using hc.1
    simp [splitFirst, leadsWith, hcb, ih hc.2]

/-- The first occurrence of a single-character separator after a clean
piece is located exactly after that piece. -/
theorem splitFirst_append (c : Char) (w rest : List Char) (hw : c ∉ w) :
    splitFirst [c] (w ++ c :: rest) = some (w, rest) := by
  induction w with
  | nil => simp [splitFirst, leadsWith]
  | cons b bs ih =>
    simp only [List.mem_cons, not_or] at hw
    have hcb : (c == b) = false := by
      simpa using hw.1
    simp [splitFirst, leadsWith, hcb, ih hw.2]

/-- The join of `n` pieces with a one-character separator has length at
least `n - 1`. -/
theorem length_le_intercalate (c : Char) (ws : List Word) :
    ws.length ≤ (List.intercalate [c] ws).length + 1 := by
  induction ws with
  | nil => simp
  | cons w ws ih =>
    cases ws with
    | nil => simp
    | cons x xs =>
      rw [intercalate_cons_cons]
      simp only [List.length_cons, List.length_append, List.length_singleton] at ih ⊢
      omega

/-- With enough fuel, splitting undoes joining for a one-character
separator occurring in none of the pieces. -/
theorem jsSplitAux_intercalate (c : Char) :
    ∀ (ws : List Word) (fuel : ℕ), ws ≠ [] → (∀ w ∈ ws, c ∉ w) →
      ws.length ≤ fuel + 1 →
      jsSplitAux [c] fuel (List.intercalate [c] ws) = ws := by
  intro ws
  induction ws with
  | nil => intro fuel h; exact absurd rfl h
  | cons w ws ih =>
    intro fuel _ hc hfuel
    cases ws with
    | nil =>
      have hw : List.intercalate [c] [w] = w := by simp [List.intercalate]
      rw [hw]
      cases fuel with
      | zero => rfl
      | succ f =>
        rw [jsSplitAux, splitFirst_none c w (hc w (by simp))]
    | cons x xs =>
      cases fuel with
      | zero => simp at hfuel
      | succ f =>
        rw [intercalate_cons_cons, jsSplitAux]
        have hjoin : w ++ [c] ++ List.intercalate [c] (x :: xs) =
            w ++ c :: List.intercalate [c] (x :: xs) := by simp
        rw [hjoin, splitFirst_append c w _ (hc w (by simp))]
        have htail : jsSplitAux [c] f (List.intercalate [c] (x :: xs)) = x :: xs := by
          refine ih f (by simp) (fun u hu => hc u (by simp [hu])) ?_
          simp only [List.length_cons] at hfuel ⊢
          omega
        simp only [htail]

/-- Splitting on a one-character separator recovers the joined pieces when
the character occurs in none of them. -/
theorem jsSplit_intercalate (c : Char) (ws : List Word) (hne : ws ≠ [])
    (hc : ∀ w ∈ ws, c ∉ w) :
    jsSplit [c] (List.intercalate [c] ws) = ws := by
  rw [jsSplit, if_neg (by simp)]
  refine jsSplitAux_intercalate c ws _ hne hc ?_
  have := length_le_intercalate c ws
  omega

/-! ## C5: digit insertion for the "anywhere" policy -/

/-- C5 (counterexample): the split need not recover `wordCount` parts.
With base list `["ta"]`, `wordCount = 2`, separator `"a"` and no garbling,
the generated phrase is `"TaaTa"`, which splits on `"a"` into 4 parts, not
2 — so the insertion slot count is 5, not `wordCount + 1 = 3`. -/
theorem c5_counterexample :
    generatePassphrase [['t', 'a']] 2 ['a'] 0 [0, 0, 0] =
      some ['T', 'a', 'a', 'T', 'a'] ∧
    (jsSplit ['a'] ['T', 'a', 'a', 'T', 'a']).length = 4 ∧ (4 : ℕ) ≠ 2 := by
  decide

/-- C5 (amended): when the separator is a single character occurring in
none of the phrase's words, splitting the joined phrase on the separator
recovers exactly the `wordCount` words; the insertion position is then
chosen among `wordCount + 1` slots, and the digit is inserted as its own
standalone token at that position and rejoined with the separator.  (In
general the code uses `parts.length + 1` slots for the actual split.) -/
theorem c5_amended (ws : List Word) (c : Char) (d t : ℕ)
    (hne : ws ≠ []) (hc : ∀ w ∈ ws, c ∉ w) :
    jsSplit [c] (List.intercalate [c] ws) = ws ∧
    (jsSplit [c] (List.intercalate [c] ws)).length = ws.length ∧
    insertDigitAnywhere (List.intercalate [c] ws) [c] d t =
      List.intercalate [c] (ws.insertIdx (t % (ws.length + 1)) (digitToken d)) := by
  have h := jsSplit_intercalate c ws hne hc
  refine ⟨h, by rw [h], ?_⟩
  rw [insertDigitAnywhere, h]

/-- C5 witness: phrase `"a-b"`, separator `'-'`, digit 7, draw 5: two
parts are recovered and the digit lands in slot `5 % 3 = 2`. -/
theorem c5_witness :
    jsSplit ['-'] (List.intercalate ['-'] [['a'], ['b']]) = [['a'], ['b']] ∧
    (jsSplit ['-'] (List.intercalate ['-'] [['a'], ['b']])).length =
      ([['a'], ['b']] : List Word).length ∧
    insertDigitAnywhere (List.intercalate ['-'] [['a'], ['b']]) ['-'] 7 5 =
      List.intercalate ['-']
        (([['a'], ['b']] : List Word).insertIdx (5 % (2 + 1)) (digitToken 7)) :=
  c5_amended [['a'], ['b']] '-' 7 5 (by decide) (by decide)

end Chaerea
